import Mathlib

/-!
Verification of the class-track utility layer.

Shallow embedding of the repository's utility functions (derived date
state, priority display info, progress percentage, assignment filtering
and sorting) together with a model of the store-level operations that the
spec describes (toggle completion, cascading course delete).

Calendar dates are represented by their day number (an integer counting
days from an arbitrary epoch): the source zeroes the time-of-day on both
sides before comparing, so after `setHours(0,0,0,0)` a JavaScript `Date`
is exactly a midnight instant, i.e. `dayNumber * msPerDay` milliseconds.
-/

namespace ClassTrack

/-- Milliseconds per day, the divisor `1000 * 60 * 60 * 24` in the source. -/
def msPerDay : ℤ := 1000 * 60 * 60 * 24

/-- `daysUntilDue` from the source: both dates have time zeroed, so they are
midnight instants `today * msPerDay` and `due * msPerDay`; the source takes
`Math.ceil((due - today) / msPerDay)` over the millisecond difference. -/
def daysUntilDue (today due : ℤ) : ℤ :=
  ⌈((due * msPerDay - today * msPerDay : ℤ) : ℚ) / (msPerDay : ℚ)⌉

/-- `isOverdue(dueDate, completed)` from the source. -/
def isOverdue (today due : ℤ) (completed : Bool) : Bool :=
  if completed then false else decide (daysUntilDue today due < 0)

/-- `isDueSoon(dueDate, completed)` from the source. -/
def isDueSoon (today due : ℤ) (completed : Bool) : Bool :=
  if completed then false
  else
    let days := daysUntilDue today due
    decide (0 ≤ days) && decide (days ≤ 3)

theorem daysUntilDue_eq (today due : ℤ) : daysUntilDue today due = due - today := by
  unfold daysUntilDue
  have hms : ((msPerDay : ℤ) : ℚ) ≠ 0 := by norm_num [msPerDay]
  rw [show ((due * msPerDay - today * msPerDay : ℤ) : ℚ)
        = ((due - today : ℤ) : ℚ) * ((msPerDay : ℤ) : ℚ) by push_cast; ring]
  rw [mul_div_assoc, div_self hms, mul_one, Int.ceil_intCast]

/-- Priority display info, the values of the `priorities` object literal. -/
structure PriorityInfo where
  cls : String
  label : String
  order : ℤ
deriving DecidableEq

/-- `getPriorityInfo(priority)` from the source: object lookup with a
`|| priorities.medium` fallback; `none` models an `undefined` argument. -/
def getPriorityInfo (priority : Option String) : PriorityInfo :=
  if priority == some "high" then ⟨"priority-high", "High", 1⟩
  else if priority == some "medium" then ⟨"priority-medium", "Medium", 2⟩
  else if priority == some "low" then ⟨"priority-low", "Low", 3⟩
  else ⟨"priority-medium", "Medium", 2⟩

/-- `calculateProgress(completed, total)` from the source:
`Math.round((completed / total) * 100)` guarded by `total === 0`. -/
def calculateProgress (completed total : ℕ) : ℤ :=
  if total = 0 then 0 else round ((completed : ℚ) / (total : ℚ) * 100)

/-- C1: for every current date and due date (as calendar dates) and every
completion flag, `isOverdue` is `false` whenever `completed` is `true`, and
otherwise it is `true` exactly when the due date is strictly before the
current date. -/
theorem isOverdue_spec (today due : ℤ) (completed : Bool) :
    (completed = true → isOverdue today due completed = false) ∧
      (isOverdue today due completed = true ↔ completed = false ∧ due < today) := by
  constructor
  · intro h; simp [isOverdue, h]
  · cases completed <;> simp [isOverdue, daysUntilDue_eq]

/-- C1 witness: concrete evaluations of `isOverdue_spec`. -/
theorem isOverdue_spec_witness :
    isOverdue 10 9 true = false ∧ isOverdue 10 9 false = true := by
  refine ⟨(isOverdue_spec 10 9 true).1 rfl, (isOverdue_spec 10 9 false).2.mpr ⟨rfl, by decide⟩⟩

/-- C2: `isDueSoon` holds exactly when the assignment is incomplete, not
overdue, and due within 0 to 3 days inclusive; hence `isDueSoon = true`
forces `isOverdue = false` and `completed = false`. -/
theorem isDueSoon_spec (today due : ℤ) (completed : Bool) :
    (isDueSoon today due completed = true ↔
        completed = false ∧ isOverdue today due completed = false ∧
          0 ≤ due - today ∧ due - today ≤ 3) ∧
      (isDueSoon today due completed = true →
        isOverdue today due completed = false ∧ completed = false) := by
  have h : ∀ c : Bool, (isDueSoon today due c = true ↔
      c = false ∧ isOverdue today due c = false ∧ 0 ≤ due - today ∧ due - today ≤ 3) := by
    intro c
    cases c <;> simp [isDueSoon, isOverdue, daysUntilDue_eq]
  exact ⟨h completed, fun hs => ⟨((h completed).mp hs).2.1, ((h completed).mp hs).1⟩⟩

/-- C2 witness: concrete evaluation of `isDueSoon_spec`. -/
theorem isDueSoon_spec_witness :
    isDueSoon 10 12 false = true ∧ isOverdue 10 12 false = false := by
  have hov : isOverdue 10 12 false = false := by
    simp [isOverdue, daysUntilDue_eq]
  have h := (isDueSoon_spec 10 12 false).1.mpr ⟨rfl, hov, by decide, by decide⟩
  exact ⟨h, ((isDueSoon_spec 10 12 false).2 h).1⟩

/-- C3: the completion rate is `round (100 * completed / total)` for a
positive total, `0` for an empty total, and in particular `75` for 3 of 4
and `0` for 0 of 0. -/
theorem calculateProgress_spec (completed total : ℕ) :
    (calculateProgress completed total
        = if total = 0 then 0 else round ((100 * completed : ℚ) / (total : ℚ))) ∧
      calculateProgress 3 4 = 75 ∧ calculateProgress 0 0 = 0 := by
  refine ⟨?_, ?_, by simp [calculateProgress]⟩
  · unfold calculateProgress
    rcases eq_or_ne total 0 with h | h
    · simp [h]
    · simp only [h, if_false]
      congr 1
      ring
  · show (if (4 : ℕ) = 0 then (0 : ℤ) else round ((3 : ℚ) / (4 : ℚ) * 100)) = 75
    norm_num [round_eq]

/-- C10: any priority outside {high, medium, low} — including an undefined
one — falls through the lookup to the medium entry (order 2); the value is
silently coerced rather than rejected. -/
theorem getPriorityInfo_default (p : Option String)
    (h1 : p ≠ some "high") (h2 : p ≠ some "medium") (h3 : p ≠ some "low") :
    getPriorityInfo p = ⟨"priority-medium", "Medium", 2⟩ := by
  unfold getPriorityInfo
  rw [if_neg, if_neg, if_neg]
  · simp only [beq_iff_eq]; exact h3
  · simp only [beq_iff_eq]; exact h2
  · simp only [beq_iff_eq]; exact h1

/-- C10 witness: `getPriorityInfo_default` applied to the unknown priority
string "urgent" and to an undefined priority. -/
theorem getPriorityInfo_default_witness :
    getPriorityInfo (some "urgent") = ⟨"priority-medium", "Medium", 2⟩ ∧
      getPriorityInfo none = ⟨"priority-medium", "Medium", 2⟩ :=
  ⟨getPriorityInfo_default (some "urgent") (by decide) (by decide) (by decide),
    getPriorityInfo_default none (by decide) (by decide) (by decide)⟩

/-! ## Assignments, filtering and sorting -/

/-- The assignment record as the utility layer sees it: the fields read by
`filterAssignments`, `sortAssignments` and the card renderer. `description`
and `courseName` are optional because the filter guards them with a
truthiness check; `dueDate` is a calendar-day number; `completedAt` is the
nullable completion timestamp of the stored entity. -/
structure Assignment where
  id : ℤ
  courseId : ℤ
  title : String
  description : Option String
  dueDate : ℤ
  priority : String
  points : ℤ
  completed : Bool
  completedAt : Option ℤ
  courseName : Option String
  courseCode : String
deriving DecidableEq

/-- Characters of a string lower-cased, modelling `s.toLowerCase()`. -/
def lowerChars (s : String) : List Char :=
  s.toList.map Char.toLower

/-- `needle.isPrefixOf hay` spelled out for `List Char`. -/
def leadsWith : List Char → List Char → Bool
  | [], _ => true
  | _ :: _, [] => false
  | a :: as, b :: bs => a == b && leadsWith as bs

/-- `hay.includes(needle)`: `needle` occurs contiguously inside `hay`. -/
def containsSub : List Char → List Char → Bool
  | needle, [] => needle.isEmpty
  | needle, b :: bs => leadsWith needle (b :: bs) || containsSub needle bs

/-- The filter criteria object `{courseId?, status?, search?}`; `none` and
`""` model absent/empty values (falsy in the source's guards). -/
structure Filters where
  courseId : Option ℤ
  status : String
  search : String

/-- The search predicate of `filterAssignments`: the lower-cased search term
must occur in the title, the description (when present) or the course name
(when present). -/
def searchMatch (searchLower : List Char) (a : Assignment) : Bool :=
  containsSub searchLower (lowerChars a.title)
    || (match a.description with
        | some d => containsSub searchLower (lowerChars d)
        | none => false)
    || (match a.courseName with
        | some n => containsSub searchLower (lowerChars n)
        | none => false)

/-- `filterAssignments(assignments, filters)` from the source: three
successive `Array.filter` passes, each guarded by truthiness of its
criterion. -/
def filterAssignments (assignments : List Assignment) (filters : Filters) :
    List Assignment :=
  let f1 := match filters.courseId with
    | some cid => assignments.filter (fun a => a.courseId == cid)
    | none => assignments
  let f2 := if filters.status == "completed" then f1.filter (fun a => a.completed)
    else if filters.status == "incomplete" then f1.filter (fun a => !a.completed)
    else f1
  if filters.search == "" then f2
  else f2.filter (searchMatch (lowerChars filters.search))

/-- The course-criterion predicate of `filterAssignments`. -/
def courseOk (cid : Option ℤ) (a : Assignment) : Bool :=
  match cid with
  | some c => a.courseId == c
  | none => true

/-- The status-criterion predicate of `filterAssignments`. -/
def statusOk (status : String) (a : Assignment) : Bool :=
  if status == "completed" then a.completed
  else if status == "incomplete" then !a.completed
  else true

/-- The search-criterion predicate of `filterAssignments`. -/
def searchOk (search : String) (a : Assignment) : Bool :=
  if search == "" then true else searchMatch (lowerChars search) a

/-- The search criterion as the spec words it: case-insensitive substring
match against title, description, and associated course name or course
code (logical OR across the four fields). Stated for comparison with the
source's `searchMatch`, which does not consult the course code. -/
def specSearchMatch (search : String) (a : Assignment) : Bool :=
  let s := lowerChars search
  containsSub s (lowerChars a.title)
    || (match a.description with
        | some d => containsSub s (lowerChars d)
        | none => false)
    || (match a.courseName with
        | some n => containsSub s (lowerChars n)
        | none => false)
    || containsSub s (lowerChars a.courseCode)

theorem filterAssignments_eq (l : List Assignment) (f : Filters) :
    filterAssignments l f
      = l.filter (fun a =>
          courseOk f.courseId a && statusOk f.status a && searchOk f.search a) := by
  rcases f with ⟨cid, status, search⟩
  simp only [filterAssignments, courseOk, statusOk, searchOk]
  cases cid <;> split_ifs <;>
    simp_all [List.filter_filter, Bool.and_comm, Bool.and_assoc, Bool.and_left_comm]

/-- C5: the three filter criteria compose with logical AND; status
`completed` keeps exactly the completed assignments, `incomplete` exactly
the incomplete ones, any other status imposes no restriction, and a course
filter combined with a status filter keeps exactly the assignments
matching both. -/
theorem filterAssignments_spec (l : List Assignment) :
    (∀ f, filterAssignments l f
        = l.filter (fun a =>
            courseOk f.courseId a && statusOk f.status a && searchOk f.search a)) ∧
      filterAssignments l ⟨none, "completed", ""⟩ = l.filter (fun a => a.completed) ∧
      filterAssignments l ⟨none, "incomplete", ""⟩ = l.filter (fun a => !a.completed) ∧
      (∀ s, s ≠ "completed" → s ≠ "incomplete" →
        filterAssignments l ⟨none, s, ""⟩ = l) ∧
      (∀ c, filterAssignments l ⟨some c, "incomplete", ""⟩
        = l.filter (fun a => a.courseId == c && !a.completed)) := by
  refine ⟨filterAssignments_eq l, ?_, ?_, ?_, ?_⟩
  · rw [filterAssignments_eq]
    simp [courseOk, statusOk, searchOk]
  · rw [filterAssignments_eq]
    simp [courseOk, statusOk, searchOk]
  · intro s h1 h2
    rw [filterAssignments_eq]
    simp [courseOk, statusOk, searchOk, h1, h2]
  · intro c
    rw [filterAssignments_eq]
    simp [courseOk, statusOk, searchOk]

/-- A concrete assignment whose course code (and nothing else) contains the
search term "cs101". -/
def wsAssignment : Assignment :=
  { id := 1, courseId := 1, title := "Worksheet", description := none,
    dueDate := 0, priority := "high", points := 10, completed := false,
    completedAt := none, courseName := some "Algorithms", courseCode := "CS101" }

/-- C5 witness: `filterAssignments_spec` applied to a concrete list, with
the unrestricted-status branch discharged at status "all". -/
theorem filterAssignments_spec_witness :
    filterAssignments [wsAssignment] ⟨none, "all", ""⟩ = [wsAssignment] :=
  (filterAssignments_spec [wsAssignment]).2.2.2.1 "all" (by decide) (by decide)

/-- C4 counterexample: the claim says a search term matching only the
course code keeps the assignment, but `filterAssignments` never consults
the course code and drops it. -/
theorem searchFilter_claim_counterexample :
    specSearchMatch "cs101" wsAssignment = true ∧
      filterAssignments [wsAssignment] ⟨none, "", "cs101"⟩ = [] := by
  constructor
  · decide
  · decide

/-- C4 (amended): for a non-empty search string, `filterAssignments` keeps
exactly the assignments whose lower-cased title, description, or course
name — but not course code — contains the lower-cased search term; an empty
search string imposes no restriction. -/
theorem searchFilter_spec (l : List Assignment) (s : String) (hs : s ≠ "") :
    (∀ a, a ∈ filterAssignments l ⟨none, "", s⟩ ↔
        a ∈ l ∧ (containsSub (lowerChars s) (lowerChars a.title) = true
          ∨ (∃ d, a.description = some d ∧ containsSub (lowerChars s) (lowerChars d) = true)
          ∨ (∃ n, a.courseName = some n ∧ containsSub (lowerChars s) (lowerChars n) = true)))
      ∧ filterAssignments l ⟨none, "", ""⟩ = l := by
  constructor
  · intro a
    rw [filterAssignments_eq]
    have hs' : (s == "") = false := by simpa using hs
    simp only [List.mem_filter, courseOk, statusOk, searchOk, hs']
    obtain ⟨i, cid, title, desc, dd, prio, pts, comp, cAt, cName, cCode⟩ := a
    cases desc <;> cases cName <;>
      simp [searchMatch, and_assoc, or_assoc]
  · rw [filterAssignments_eq]
    simp [courseOk, statusOk, searchOk]

/-- C4 witness: `searchFilter_spec` at a concrete list and the search term
"algo", matched by the course name. -/
theorem searchFilter_spec_witness :
    wsAssignment ∈ filterAssignments [wsAssignment] ⟨none, "", "algo"⟩ :=
  ((searchFilter_spec [wsAssignment] "algo" (by decide)).1 wsAssignment).mpr
    ⟨List.mem_singleton.mpr rfl,
      Or.inr (Or.inr ⟨"Algorithms", rfl, by decide⟩)⟩

/-! ## Sorting -/

/-- The `priorityOrder` object literal inside the priority comparator:
`none` models an `undefined` lookup for a priority outside the map. -/
def priorityOrderOf (p : String) : Option ℤ :=
  if p == "high" then some 1
  else if p == "medium" then some 2
  else if p == "low" then some 3
  else none

/-- The priority comparator `priorityOrder[a.priority] - priorityOrder[b.priority]`.
When a lookup is `undefined` the subtraction yields `NaN`, which the
ECMAScript sort algorithm treats as `+0`; hence the catch-all branch. -/
def priorityCmp (a b : Assignment) : ℤ :=
  match priorityOrderOf a.priority, priorityOrderOf b.priority with
  | some x, some y => x - y
  | _, _ => 0

/-- The non-strict "sorts before or ties" relation induced by each
comparator of `sortAssignments` (comparator result ≤ 0). The unknown key
branch mirrors the `default` case of the source's `switch`. -/
def leFor (sortBy : String) : Assignment → Assignment → Bool :=
  if sortBy == "dueDate" then fun a b => decide (a.dueDate - b.dueDate ≤ 0)
  else if sortBy == "priority" then fun a b => decide (priorityCmp a b ≤ 0)
  else if sortBy == "points" then fun a b => decide (b.points - a.points ≤ 0)
  else fun a b => decide (a.dueDate - b.dueDate ≤ 0)

/-- Insert `x` into `l` before the first element it sorts before or ties
with (the step of a stable insertion sort). -/
def insertIn (le : α → α → Bool) (x : α) : List α → List α
  | [] => [x]
  | y :: l => if le x y then x :: y :: l else y :: insertIn le x l

/-- Stable insertion sort: the model of `Array.prototype.sort`, which
ECMAScript 2019+ requires to be stable. -/
def stableSort (le : α → α → Bool) : List α → List α
  | [] => []
  | x :: l => insertIn le x (stableSort le l)

/-- `sortAssignments(assignments, sortBy)` from the source: a copy of the
input sorted by the comparator selected by `sortBy`. -/
def sortAssignments (assignments : List Assignment) (sortBy : String) :
    List Assignment :=
  stableSort (leFor sortBy) assignments

theorem mem_insertIn (le : α → α → Bool) (x : α) (l : List α) (a : α) :
    a ∈ insertIn le x l ↔ a = x ∨ a ∈ l := by
  induction l with
  | nil => simp [insertIn]
  | cons y t ih =>
    simp only [insertIn]
    split
    · simp [List.mem_cons]
    · simp only [List.mem_cons, ih]
      tauto

theorem mem_stableSort (le : α → α → Bool) (l : List α) (a : α) :
    a ∈ stableSort le l ↔ a ∈ l := by
  induction l with
  | nil => simp [stableSort]
  | cons x t ih => simp [stableSort, mem_insertIn, ih]

theorem pairwise_insertIn (le : α → α → Bool) (x : α) (l : List α)
    (htot : ∀ b ∈ l, le x b = true ∨ le b x = true)
    (htrans : ∀ b ∈ l, ∀ c ∈ l, le x b = true → le b c = true → le x c = true)
    (hp : l.Pairwise (fun a b => le a b = true)) :
    (insertIn le x l).Pairwise (fun a b => le a b = true) := by
  induction l with
  | nil => simp [insertIn]
  | cons y t ih =>
    simp only [insertIn]
    cases hxy : le x y with
    | true =>
      simp only [if_pos rfl]
      refine List.pairwise_cons.mpr ⟨?_, hp⟩
      intro z hz
      rcases List.mem_cons.mp hz with rfl | hzt
      · exact hxy
      · exact htrans y (List.mem_cons_self y t) z (List.mem_cons_of_mem y hzt) hxy
          (List.rel_of_pairwise_cons hp hzt)
    | false =>
      simp only [Bool.false_eq_true, if_false]
      refine List.pairwise_cons.mpr ⟨?_, ?_⟩
      · intro z hz
        rcases (mem_insertIn le x t z).mp hz with rfl | hzt
        · rcases htot y (List.mem_cons_self y t) with h | h
          · exact absurd h (by simp [hxy])
          · exact h
        · exact List.rel_of_pairwise_cons hp hzt
      · exact ih (fun b hb => htot b (List.mem_cons_of_mem y hb))
          (fun b hb c hc => htrans b (List.mem_cons_of_mem y hb) c (List.mem_cons_of_mem y hc))
          (List.Pairwise.of_cons hp)

theorem pairwise_stableSort (le : α → α → Bool) (l : List α)
    (htot : ∀ a ∈ l, ∀ b ∈ l, le a b = true ∨ le b a = true)
    (htrans : ∀ a ∈ l, ∀ b ∈ l, ∀ c ∈ l, le a b = true → le b c = true → le a c = true) :
    (stableSort le l).Pairwise (fun a b => le a b = true) := by
  induction l with
  | nil => simp [stableSort]
  | cons x t ih =>
    simp only [stableSort]
    refine pairwise_insertIn le x (stableSort le t) ?_ ?_ ?_
    · intro b hb
      exact htot x (List.mem_cons_self x t) b
        (List.mem_cons_of_mem x ((mem_stableSort le t b).mp hb))
    · intro b hb c hc
      exact htrans x (List.mem_cons_self x t)
        b (List.mem_cons_of_mem x ((mem_stableSort le t b).mp hb))
        c (List.mem_cons_of_mem x ((mem_stableSort le t c).mp hc))
    · exact ih
        (fun a ha b hb => htot a (List.mem_cons_of_mem x ha) b (List.mem_cons_of_mem x hb))
        (fun a ha b hb c hc => htrans a (List.mem_cons_of_mem x ha)
          b (List.mem_cons_of_mem x hb) c (List.mem_cons_of_mem x hc))

theorem filter_insertIn (le : α → α → Bool) (p : α → Bool) (x : α) (l : List α)
    (hx : p x = true → ∀ b ∈ l, p b = true → le x b = true) :
    (insertIn le x l).filter p = if p x then x :: l.filter p else l.filter p := by
  induction l with
  | nil =>
    cases hpx : p x <;> simp [insertIn, List.filter_cons, hpx]
  | cons y t ih =>
    simp only [insertIn]
    cases hxy : le x y with
    | true =>
      cases hpx : p x <;> simp [List.filter_cons, hpx]
    | false =>
      simp only [Bool.false_eq_true, if_false, List.filter_cons]
      have ih' := ih (fun hpx b hb hpb => hx hpx b (List.mem_cons_of_mem y hb) hpb)
      cases hpx : p x with
      | false =>
        simp only [hpx] at ih'
        cases hpy : p y <;> simp [List.filter_cons, hpx, hpy, ih']
      | true =>
        cases hpy : p y with
        | false =>
          simp only [hpx] at ih'
          simp [List.filter_cons, hpx, hpy, ih']
        | true =>
          exact absurd (hx hpx y (List.mem_cons_self y t) hpy) (by simp [hxy])

theorem filter_stableSort (le : α → α → Bool) (p : α → Bool) (l : List α)
    (hties : ∀ a ∈ l, ∀ b ∈ l, p a = true → p b = true → le a b = true) :
    (stableSort le l).filter p = l.filter p := by
  induction l with
  | nil => rfl
  | cons x t ih =>
    simp only [stableSort]
    rw [filter_insertIn le p x (stableSort le t)
      (fun hpx b hb hpb => hties x (List.mem_cons_self x t)
        b (List.mem_cons_of_mem x ((mem_stableSort le t b).mp hb)) hpx hpb)]
    have ih' := ih (fun a ha b hb => hties a (List.mem_cons_of_mem x ha)
      b (List.mem_cons_of_mem x hb))
    cases hpx : p x <;> simp [List.filter_cons, hpx, ih']

/-- `priorityRank` as the spec defines it: high = 1, medium = 2, low = 3
(lower is more urgent). -/
def priorityRank (p : String) : ℤ :=
  if p = "high" then 1 else if p = "medium" then 2 else 3

theorem priorityOrderOf_eq_rank {p : String}
    (h : p = "high" ∨ p = "medium" ∨ p = "low") :
    priorityOrderOf p = some (priorityRank p) := by
  rcases h with rfl | rfl | rfl <;> rfl

/-- C6: with all priorities in {high, medium, low}, sorting by priority
orders by `priorityRank` ascending (all high before all medium before all
low) and is stable (the subsequence of each fixed priority is unchanged);
sorting by dueDate orders ascending and is what every unknown key falls
back to; sorting by points orders descending; the dueDate and points sorts
are likewise stable (the subsequence at each fixed key value is
unchanged). -/
theorem sortAssignments_spec (l : List Assignment) (key : String)
    (hval : ∀ a ∈ l, a.priority = "high" ∨ a.priority = "medium" ∨ a.priority = "low") :
    (sortAssignments l "priority").Pairwise
        (fun a b => priorityRank a.priority ≤ priorityRank b.priority) ∧
      (∀ p, (sortAssignments l "priority").filter (fun a => a.priority == p)
          = l.filter (fun a => a.priority == p)) ∧
      (sortAssignments l "dueDate").Pairwise (fun a b => a.dueDate ≤ b.dueDate) ∧
      (key ≠ "dueDate" → key ≠ "priority" → key ≠ "points" →
        sortAssignments l key = sortAssignments l "dueDate") ∧
      (sortAssignments l "points").Pairwise (fun a b => b.points ≤ a.points) ∧
      (∀ d, (sortAssignments l "dueDate").filter (fun a => a.dueDate == d)
          = l.filter (fun a => a.dueDate == d)) ∧
      (∀ q, (sortAssignments l "points").filter (fun a => a.points == q)
          = l.filter (fun a => a.points == q)) := by
  have hle : leFor "priority" = fun a b => decide (priorityCmp a b ≤ 0) := rfl
  have hrank : ∀ a ∈ l, priorityOrderOf a.priority = some (priorityRank a.priority) :=
    fun a ha => priorityOrderOf_eq_rank (hval a ha)
  refine ⟨?_, ?_, ?_, ?_, ?_, ?_, ?_⟩
  · have htot : ∀ a ∈ l, ∀ b ∈ l,
        leFor "priority" a b = true ∨ leFor "priority" b a = true := by
      intro a ha b hb
      rw [hle]
      simp only [decide_eq_true_eq, priorityCmp, hrank a ha, hrank b hb]
      omega
    have htrans : ∀ a ∈ l, ∀ b ∈ l, ∀ c ∈ l,
        leFor "priority" a b = true → leFor "priority" b c = true →
          leFor "priority" a c = true := by
      intro a ha b hb c hc
      rw [hle]
      simp only [decide_eq_true_eq, priorityCmp, hrank a ha, hrank b hb, hrank c hc]
      omega
    have hpw := pairwise_stableSort (leFor "priority") l htot htrans
    refine List.Pairwise.imp_of_mem ?_ hpw
    intro a b ha hb h
    have ha' := (mem_stableSort (leFor "priority") l a).mp ha
    have hb' := (mem_stableSort (leFor "priority") l b).mp hb
    rw [hle] at h
    simp only [decide_eq_true_eq, priorityCmp, hrank a ha', hrank b hb'] at h
    omega
  · intro p
    refine filter_stableSort (leFor "priority") (fun a => a.priority == p) l ?_
    intro a _ b _ hA hB
    have hab : a.priority = b.priority := by
      rw [beq_iff_eq] at hA hB
      rw [hA, hB]
    rw [hle]
    simp only [priorityCmp, hab]
    cases h : priorityOrderOf b.priority <;> simp
  · have hpw := pairwise_stableSort (leFor "dueDate") l
      (by intro a _ b _; simp [leFor]; omega)
      (by intro a _ b _ c _; simp [leFor]; omega)
    refine hpw.imp ?_
    intro a b h
    simp [leFor] at h
    omega
  · intro h1 h2 h3
    have e1 : (key == "dueDate") = false := by simpa using h1
    have e2 : (key == "priority") = false := by simpa using h2
    have e3 : (key == "points") = false := by simpa using h3
    have : leFor key = leFor "dueDate" := by
      simp [leFor, e1, e2, e3]
    simp [sortAssignments, this]
  · have hpw := pairwise_stableSort (leFor "points") l
      (by intro a _ b _; simp [leFor]; omega)
      (by intro a _ b _ c _; simp [leFor]; omega)
    refine hpw.imp ?_
    intro a b h
    simp [leFor] at h
    omega
  · intro d
    refine filter_stableSort (leFor "dueDate") (fun a => a.dueDate == d) l ?_
    intro a _ b _ hA hB
    rw [beq_iff_eq] at hA hB
    simp [leFor]
    omega
  · intro q
    refine filter_stableSort (leFor "points") (fun a => a.points == q) l ?_
    intro a _ b _ hA hB
    rw [beq_iff_eq] at hA hB
    simp [leFor]
    omega

/-- A second concrete assignment, low-priority, for sort witnesses. -/
def loAssignment : Assignment :=
  { id := 2, courseId := 1, title := "Reading", description := none,
    dueDate := 5, priority := "low", points := 5, completed := false,
    completedAt := none, courseName := none, courseCode := "CS101" }

/-- C6 witness: `sortAssignments_spec` at a concrete two-element list, with
the unknown-key branch discharged at key "other". -/
theorem sortAssignments_spec_witness :
    sortAssignments [loAssignment, wsAssignment] "other"
      = sortAssignments [loAssignment, wsAssignment] "dueDate" :=
  (sortAssignments_spec [loAssignment, wsAssignment] "other"
      (by decide)).2.2.2.1 (by decide) (by decide) (by decide)

/-! ## Frame: filtering and sorting do not mutate their input

A tiny heap of arrays makes the aliasing behaviour of the source explicit:
a reference is an index into the heap and allocation appends. The source's
`const sorted = [...assignments]` allocates a fresh array and
`sorted.sort(...)` mutates only that fresh array in place; the filter
passes allocate fresh arrays outright. -/

/-- `sortAssignments` at heap level: copy the input array to a fresh
reference, sort the copy in place, return the fresh reference. -/
def sortOnHeap (h : List (List Assignment)) (r : ℕ) (sortBy : String) :
    ℕ × List (List Assignment) :=
  match h[r]? with
  | none => (r, h)
  | some arr =>
    let r2 := h.length
    let h2 := h ++ [arr]
    (r2, h2.set r2 (sortAssignments arr sortBy))

/-- `filterAssignments` at heap level: the copy and the `Array.filter`
passes only ever write fresh arrays, so the net heap effect is one fresh
reference holding the filtered contents. -/
def filterOnHeap (h : List (List Assignment)) (r : ℕ) (f : Filters) :
    ℕ × List (List Assignment) :=
  match h[r]? with
  | none => (r, h)
  | some arr => (h.length, h ++ [filterAssignments arr f])

theorem set_append_last (l : List α) (a v : α) :
    (l ++ [a]).set l.length v = l ++ [v] := by
  induction l with
  | nil => rfl
  | cons x t ih => simp [List.set, ih]

theorem lt_length_of_read {l : List α} {r : ℕ} {a : α} (h : l[r]? = some a) :
    r < l.length := by
  by_contra hc
  push_neg at hc
  rw [List.getElem?_eq_none hc] at h
  exact Option.noConfusion h

/-- C7: both query operations return a fresh reference whose contents are
the pure result on the input contents, and the input reference still holds
exactly its old contents afterwards — the snapshot passed in is not
mutated, and the result depends only on the input list and the
criteria/key (the current date enters only through the pure functions). -/
theorem queryOps_no_mutation (h : List (List Assignment)) (r : ℕ)
    (arr : List Assignment) (key : String) (f : Filters)
    (hr : h[r]? = some arr) :
    ((sortOnHeap h r key).1 ≠ r ∧
      (sortOnHeap h r key).2[r]? = some arr ∧
      (sortOnHeap h r key).2[(sortOnHeap h r key).1]? = some (sortAssignments arr key)) ∧
      ((filterOnHeap h r f).1 ≠ r ∧
        (filterOnHeap h r f).2[r]? = some arr ∧
        (filterOnHeap h r f).2[(filterOnHeap h r f).1]? = some (filterAssignments arr f)) := by
  have hlt : r < h.length := lt_length_of_read hr
  have hsort : sortOnHeap h r key
      = (h.length, h ++ [sortAssignments arr key]) := by
    simp [sortOnHeap, hr, set_append_last]
  have hfilter : filterOnHeap h r f = (h.length, h ++ [filterAssignments arr f]) := by
    simp [filterOnHeap, hr]
  constructor
  · rw [hsort]
    exact ⟨by omega, by rw [List.getElem?_append_left hlt]; exact hr,
      List.getElem?_concat_length h (sortAssignments arr key)⟩
  · rw [hfilter]
    exact ⟨by omega, by rw [List.getElem?_append_left hlt]; exact hr,
      List.getElem?_concat_length h (filterAssignments arr f)⟩

/-- C7 witness: `queryOps_no_mutation` on a concrete one-reference heap. -/
theorem queryOps_no_mutation_witness :
    (sortOnHeap [[wsAssignment, loAssignment]] 0 "points").2[0]?
        = some [wsAssignment, loAssignment] ∧
      (filterOnHeap [[wsAssignment, loAssignment]] 0 ⟨none, "completed", ""⟩).2[0]?
        = some [wsAssignment, loAssignment] :=
  ⟨((queryOps_no_mutation [[wsAssignment, loAssignment]] 0 [wsAssignment, loAssignment]
      "points" ⟨none, "completed", ""⟩ rfl).1).2.1,
    ((queryOps_no_mutation [[wsAssignment, loAssignment]] 0 [wsAssignment, loAssignment]
      "points" ⟨none, "completed", ""⟩ rfl).2).2.1⟩

/-! ## Store-level operations

The backend store is not among the provided sources — only its HTTP
callers (`toggleAssignmentCompleteAPI`, `deleteCourseAPI`, ...) are — so
the two operations below are modelled from the spec's words. -/

/-- A course row as §3 of the spec describes it. -/
structure Course where
  id : ℤ
  name : String
  code : String
  color : String
  credits : ℤ
  semester : String
deriving DecidableEq

/-- A history row as §3 of the spec describes it: assignment, field name
changed, previous value, new value, timestamp. -/
structure HistoryEntry where
  id : ℤ
  assignmentId : ℤ
  fieldName : String
  oldValue : String
  newValue : String
  timestamp : ℤ
deriving DecidableEq

/-- The three relational tables of the store. -/
structure DBState where
  courses : List Course
  assignments : List Assignment
  history : List HistoryEntry
deriving DecidableEq

/-- A boolean rendered as a stored history value. -/
def boolVal (b : Bool) : String := if b then "true" else "false"

/-- The per-row update of a completion toggle: the row with the given id
gets the new flag and the matching `completedAt`; every other row is
untouched. -/
def applyToggle (i : ℤ) (newVal : Bool) (now : ℤ) (b : Assignment) : Assignment :=
  if b.id == i then
    { b with completed := newVal,
             completedAt := if newVal then some now else none }
  else b

/-- Modelled from the spec: the server-side `toggleComplete(id)` operation
of §4.3, whose implementation is missing from the sources. It flips
`completed` on the assignment with the given id, sets `completedAt` to the
current time when the flag becomes true and clears it when it becomes
false, and appends one HistoryEntry recording the completed-field
transition, all atomically; an absent id fails with `NotFoundError`. -/
def toggleComplete (st : DBState) (i now : ℤ) : Except String DBState :=
  match st.assignments.find? (fun b => b.id == i) with
  | none => Except.error "NotFoundError"
  | some a =>
    let newVal := !a.completed
    Except.ok
      { st with
        assignments := st.assignments.map (applyToggle i newVal now),
        history := st.history ++
          [{ id := (st.history.length : ℤ), assignmentId := i,
             fieldName := "completed", oldValue := boolVal a.completed,
             newValue := boolVal newVal, timestamp := now }] }

/-- Modelled from the spec: the server-side `deleteCourse(id)` cascade of
§4.2 and §9, whose implementation is missing from the sources. An absent id
fails with `NotFoundError` (the functional model returns no new state, so
the store is untouched); otherwise a two-phase delete collects the ids of
the assignments referencing the course, removes the history entries of
those assignments, the assignments themselves, and the course, as one
atomic step. -/
def deleteCourse (st : DBState) (i : ℤ) : Except String DBState :=
  match st.courses.find? (fun c => c.id == i) with
  | none => Except.error "NotFoundError"
  | some _ =>
    let doomedIds := (st.assignments.filter (fun a => a.courseId == i)).map Assignment.id
    Except.ok
      { courses := st.courses.filter (fun c => !(c.id == i)),
        assignments := st.assignments.filter (fun a => !(a.courseId == i)),
        history := st.history.filter (fun e => !(doomedIds.contains e.assignmentId)) }

theorem find?_map_of_id {i : ℤ} (upd : Assignment → Assignment)
    (hid : ∀ b, (upd b).id = b.id) (l : List Assignment) :
    (l.map upd).find? (fun b => b.id == i)
      = Option.map upd (l.find? (fun b => b.id == i)) := by
  induction l with
  | nil => rfl
  | cons x t ih =>
    simp only [List.map_cons, List.find?]
    rw [hid x]
    cases hx : x.id == i <;> simp [ih]

theorem applyToggle_id (i : ℤ) (newVal : Bool) (now : ℤ) (b : Assignment) :
    (applyToggle i newVal now b).id = b.id := by
  unfold applyToggle
  split <;> rfl

/-- C8: toggling completion twice brings the assignment's completed flag
back to its original value while appending exactly two history rows for
the completed-field transitions — an involution on the flag, not a no-op
on history. -/
theorem toggleComplete_twice (st : DBState) (i t1 t2 : ℤ) (a : Assignment)
    (ha : st.assignments.find? (fun b => b.id == i) = some a) :
    ∃ st1 st2 a1 a2,
      toggleComplete st i t1 = Except.ok st1 ∧
        toggleComplete st1 i t2 = Except.ok st2 ∧
        st1.assignments.find? (fun b => b.id == i) = some a1 ∧
        a1.completed = !a.completed ∧
        st2.assignments.find? (fun b => b.id == i) = some a2 ∧
        a2.completed = a.completed ∧
        (∃ e1 e2, st2.history = st.history ++ [e1, e2] ∧
          e1.fieldName = "completed" ∧ e2.fieldName = "completed" ∧
          e1.oldValue = boolVal a.completed ∧ e1.newValue = boolVal (!a.completed) ∧
          e2.oldValue = boolVal (!a.completed) ∧ e2.newValue = boolVal a.completed) := by
  have hai0 := List.find?_some ha
  have hai : (a.id == i) = true := hai0
  let a1 := applyToggle i (!a.completed) t1 a
  let e1 : HistoryEntry :=
    { id := (st.history.length : ℤ), assignmentId := i, fieldName := "completed",
      oldValue := boolVal a.completed, newValue := boolVal (!a.completed),
      timestamp := t1 }
  let st1 : DBState :=
    { st with
      assignments := st.assignments.map (applyToggle i (!a.completed) t1),
      history := st.history ++ [e1] }
  have hok1 : toggleComplete st i t1 = Except.ok st1 := by
    simp only [toggleComplete, ha]
  have ha1c : a1.completed = !a.completed := by
    show (applyToggle i (!a.completed) t1 a).completed = !a.completed
    unfold applyToggle
    rw [if_pos hai]
  have hfind1 : st1.assignments.find? (fun b => b.id == i) = some a1 := by
    show (st.assignments.map (applyToggle i (!a.completed) t1)).find?
        (fun b => b.id == i) = some a1
    rw [find?_map_of_id (applyToggle i (!a.completed) t1)
      (applyToggle_id i (!a.completed) t1), ha]
    rfl
  let a2 := applyToggle i (!a1.completed) t2 a1
  let e2 : HistoryEntry :=
    { id := (st1.history.length : ℤ), assignmentId := i, fieldName := "completed",
      oldValue := boolVal a1.completed, newValue := boolVal (!a1.completed),
      timestamp := t2 }
  let st2 : DBState :=
    { st1 with
      assignments := st1.assignments.map (applyToggle i (!a1.completed) t2),
      history := st1.history ++ [e2] }
  have hok2 : toggleComplete st1 i t2 = Except.ok st2 := by
    simp only [toggleComplete, hfind1]
  have ha1i : (a1.id == i) = true := by
    rw [show a1.id = a.id from applyToggle_id i (!a.completed) t1 a]
    exact hai
  have ha2c : a2.completed = a.completed := by
    show (applyToggle i (!a1.completed) t2 a1).completed = a.completed
    unfold applyToggle
    rw [if_pos ha1i]
    show (!a1.completed) = a.completed
    rw [ha1c, Bool.not_not]
  have hfind2 : st2.assignments.find? (fun b => b.id == i) = some a2 := by
    show (st1.assignments.map (applyToggle i (!a1.completed) t2)).find?
        (fun b => b.id == i) = some a2
    rw [find?_map_of_id (applyToggle i (!a1.completed) t2)
      (applyToggle_id i (!a1.completed) t2), hfind1]
    rfl
  refine ⟨st1, st2, a1, a2, hok1, hok2, hfind1, ha1c, hfind2, ha2c,
    e1, e2, ?_, rfl, rfl, rfl, rfl, ?_, ?_⟩
  · show (st.history ++ [e1]) ++ [e2] = st.history ++ [e1, e2]
    rw [List.append_assoc]
    rfl
  · show boolVal a1.completed = boolVal (!a.completed)
    rw [ha1c]
  · show boolVal (!a1.completed) = boolVal a.completed
    rw [ha1c, Bool.not_not]

/-- C8 witness: `toggleComplete_twice` on a one-assignment store. -/
theorem toggleComplete_twice_witness :
    ∃ st1 st2 a1 a2,
      toggleComplete ⟨[], [wsAssignment], []⟩ 1 100 = Except.ok st1 ∧
        toggleComplete st1 1 200 = Except.ok st2 ∧
        st1.assignments.find? (fun b => b.id == 1) = some a1 ∧
        a1.completed = !wsAssignment.completed ∧
        st2.assignments.find? (fun b => b.id == 1) = some a2 ∧
        a2.completed = wsAssignment.completed ∧
        (∃ e1 e2, st2.history = ([] : List HistoryEntry) ++ [e1, e2] ∧
          e1.fieldName = "completed" ∧ e2.fieldName = "completed" ∧
          e1.oldValue = boolVal wsAssignment.completed ∧
          e1.newValue = boolVal (!wsAssignment.completed) ∧
          e2.oldValue = boolVal (!wsAssignment.completed) ∧
          e2.newValue = boolVal wsAssignment.completed) :=
  toggleComplete_twice ⟨[], [wsAssignment], []⟩ 1 100 200 wsAssignment rfl

/-- C9: deleting a present course removes exactly that course, exactly the
assignments referencing it, and exactly the history rows of those
assignments, keeping everything else; deleting an absent id fails with
`NotFoundError` (and, the model being functional, produces no new state). -/
theorem deleteCourse_spec (st : DBState) (i : ℤ) :
    (st.courses.find? (fun c => c.id == i) = none →
      deleteCourse st i = Except.error "NotFoundError") ∧
      (∀ c0, st.courses.find? (fun c => c.id == i) = some c0 →
        ∃ st', deleteCourse st i = Except.ok st' ∧
          (∀ c, c ∈ st'.courses ↔ c ∈ st.courses ∧ c.id ≠ i) ∧
          (∀ a, a ∈ st'.assignments ↔ a ∈ st.assignments ∧ a.courseId ≠ i) ∧
          (∀ e, e ∈ st'.history ↔ e ∈ st.history ∧
            ¬ ∃ a, a ∈ st.assignments ∧ a.courseId = i ∧ a.id = e.assignmentId)) := by
  constructor
  · intro h
    simp [deleteCourse, h]
  · intro c0 h
    refine
      ⟨{ courses := st.courses.filter (fun c => !(c.id == i)),
         assignments := st.assignments.filter (fun a => !(a.courseId == i)),
         history := st.history.filter (fun e =>
           !(((st.assignments.filter (fun a => a.courseId == i)).map
               Assignment.id).contains e.assignmentId)) },
        by simp only [deleteCourse, h], ?_, ?_, ?_⟩
    · intro c
      simp [List.mem_filter]
    · intro a
      simp [List.mem_filter]
    · intro e
      simp [List.mem_filter, List.mem_map]

/-- Courses and one extra assignment for the delete-cascade witness. -/
def crsAlgo : Course := ⟨1, "Algorithms", "CS101", "blue", 3, "Fall"⟩

def crsCalc : Course := ⟨2, "Calculus", "MATH2", "red", 4, "Fall"⟩

def mtAssignment : Assignment :=
  { id := 3, courseId := 2, title := "Quiz", description := none,
    dueDate := 7, priority := "medium", points := 20, completed := true,
    completedAt := some 99, courseName := some "Calculus", courseCode := "MATH2" }

def histW : HistoryEntry := ⟨0, 1, "completed", "false", "true", 50⟩

def histM : HistoryEntry := ⟨1, 3, "title", "Quiz", "Quiz 1", 60⟩

/-- The store used by the delete-cascade witness: two courses, one
assignment per course, one history row per assignment. -/
def dbSample : DBState :=
  ⟨[crsAlgo, crsCalc], [wsAssignment, mtAssignment], [histW, histM]⟩

/-- C9 witness: `deleteCourse_spec` on `dbSample` at the present course
id 1. -/
theorem deleteCourse_spec_witness :
    ∃ st', deleteCourse dbSample 1 = Except.ok st' ∧
      (∀ c, c ∈ st'.courses ↔ c ∈ dbSample.courses ∧ c.id ≠ 1) ∧
      (∀ a, a ∈ st'.assignments ↔ a ∈ dbSample.assignments ∧ a.courseId ≠ 1) ∧
      (∀ e, e ∈ st'.history ↔ e ∈ dbSample.history ∧
        ¬ ∃ a, a ∈ dbSample.assignments ∧ a.courseId = 1 ∧ a.id = e.assignmentId) :=
  (deleteCourse_spec dbSample 1).2 crsAlgo rfl

end ClassTrack
